import Mathlib

/-!
Verification development for sshbox (sshbox.go), a hybrid file-encryption
utility: a random symmetric key seals the file with an authenticated
symmetric cipher (cryptobox secretbox), the symmetric key is wrapped with
RSA-OAEP, and the pair `(lockedKey, box)` is serialized either as a
DER-encoded ASN.1 SEQUENCE of two OCTET STRINGs or as a PEM
("ASCII armour") envelope around that DER record.

Bytes are modelled as natural numbers (a well-formed byte is `< 256`);
byte strings as `List Nat`.  The Go standard-library codecs the program
calls (`encoding/asn1` marshalling of a two-`[]byte` struct,
`encoding/pem`, `encoding/base64`, `encoding/binary` big-endian `int32`
reads) are embedded as executable Lean functions following the behaviour
of those libraries on the shapes this program uses; the cryptographic
primitives (`rsa.EncryptOAEP`/`DecryptOAEP`, `secretbox.Seal`/`Open`) are
external and appear as function parameters constrained by their
documented contracts.
-/

namespace Sshbox

/-- Big-endian value of a byte string (the value `big.Int.SetBytes` computes
when every list element is a byte). -/
def beVal (l : List Nat) : Nat := l.foldl (fun a b => a * 256 + b) 0

/-- Minimal big-endian base-256 digits of `n` (`[0]` for `0`). -/
def natToBE (n : Nat) : List Nat :=
  if n < 256 then [n]
  else natToBE (n / 256) ++ [n % 256]
termination_by n
decreasing_by exact Nat.div_lt_self (by omega) (by omega)

/-- DER definite-length encoding: short form below 128, otherwise
`0x80 + k` followed by the `k` minimal base-256 digits, as produced by
Go `encoding/asn1` marshalling. -/
def derLen (n : Nat) : List Nat :=
  if n < 128 then [n] else (128 + (natToBE n).length) :: natToBE n

/-- DER primitive OCTET STRING (tag `0x04`). -/
def derOctet (s : List Nat) : List Nat := 4 :: derLen s.length ++ s

/-- The `boxPackage` struct of sshbox.go: the RSA-wrapped symmetric key and
the secretbox ciphertext. -/
structure boxPackage where
  LockedKey : List Nat
  Box : List Nat
  deriving DecidableEq

/-- Model of `asn1.Marshal(boxPackage{lockedKey, box})`: a DER SEQUENCE
(tag `0x30`) of two OCTET STRINGs, in field order. -/
def asn1Marshal (p : boxPackage) : List Nat :=
  let inner := derOctet p.LockedKey ++ derOctet p.Box
  48 :: derLen inner.length ++ inner

/-- Parse a DER definite length.  Mirrors Go `encoding/asn1`
`parseTagAndLength`: indefinite lengths, leading zero digits and
non-minimal short-form-representable long forms are rejected, and so is
any length of `2 ^ 31` or more — Go errors with "length too large" when
the accumulated length reaches `1 <<< 23` before the next 8-bit shift,
which for minimal digit strings accepts exactly the values below
`2 ^ 31`. -/
def parseLen : List Nat → Option (Nat × List Nat)
  | [] => none
  | b :: rest =>
    if b < 128 then some (b, rest)
    else if b = 128 then none
    else if rest.length < b - 128 then none
    else
      let lb := rest.take (b - 128)
      if lb.headD 0 = 0 then none
      else if beVal lb < 128 then none
      else if 2 ^ 31 ≤ beVal lb then none
      else some (beVal lb, rest.drop (b - 128))

/-- Parse one DER element with the given identifier byte, returning its
contents and the remaining input. -/
def parseElem (tag : Nat) : List Nat → Option (List Nat × List Nat)
  | [] => none
  | t :: rest =>
    if t = tag then
      match parseLen rest with
      | none => none
      | some (n, rest2) =>
        if rest2.length < n then none else some (rest2.take n, rest2.drop n)
    else none

/-- Model of `asn1.Unmarshal(pkg, &boxPackage{})`: parse a SEQUENCE of two
OCTET STRINGs.  As in Go, bytes after the top-level element and extra
bytes at the end of the SEQUENCE are ignored, not rejected. -/
def asn1Unmarshal (pkg : List Nat) : Option boxPackage :=
  match parseElem 48 pkg with
  | none => none
  | some (body, _) =>
    match parseElem 4 body with
    | none => none
    | some (lk, body2) =>
      match parseElem 4 body2 with
      | none => none
      | some (bx, _) => some ⟨lk, bx⟩

theorem beVal_append_singleton (xs : List Nat) (y : Nat) :
    beVal (xs ++ [y]) = 256 * beVal xs + y := by
  simp [beVal, List.foldl_append]
  omega

theorem beVal_natToBE (n : Nat) : beVal (natToBE n) = n := by
  rw [natToBE]
  split
  · simp [beVal]
  · rw [beVal_append_singleton, beVal_natToBE (n / 256)]
    omega
termination_by n
decreasing_by exact Nat.div_lt_self (by omega) (by omega)

theorem natToBE_head (n : Nat) :
    ∃ h t, natToBE n = h :: t ∧ (0 < n → 0 < h) := by
  rw [natToBE]
  split
  · exact ⟨n, [], rfl, fun hn => hn⟩
  · rename_i hge
    obtain ⟨h, t, heq, hpos⟩ := natToBE_head (n / 256)
    rw [heq]
    exact ⟨h, t ++ [n % 256], rfl, fun _ => hpos (by omega)⟩
termination_by n
decreasing_by exact Nat.div_lt_self (by omega) (by omega)

theorem natToBE_lt (n : Nat) : ∀ b ∈ natToBE n, b < 256 := by
  rw [natToBE]
  split
  · rename_i hlt
    intro b hb
    simp at hb
    omega
  · intro b hb
    simp at hb
    rcases hb with hb | hb
    · exact natToBE_lt (n / 256) b hb
    · omega
termination_by n
decreasing_by exact Nat.div_lt_self (by omega) (by omega)

theorem natToBE_length_le (k : Nat) :
    ∀ n, n < 256 ^ (k + 1) → (natToBE n).length ≤ k + 1 := by
  induction k with
  | zero =>
    intro n hn
    rw [natToBE]
    split
    · simp
    · simp [pow_one] at hn
      omega
  | succ k ih =>
    intro n hn
    rw [natToBE]
    split
    · simp
    · have hdiv : n / 256 < 256 ^ (k + 1) := by
        apply Nat.div_lt_of_lt_mul
        rw [show 256 * 256 ^ (k + 1) = 256 ^ (k + 1 + 1) from by ring]
        exact hn
      have := ih (n / 256) hdiv
      simp [List.length_append]
      omega

theorem take_len_append (xs ys : List Nat) : (xs ++ ys).take xs.length = xs := by
  induction xs with
  | nil => simp
  | cons a t ih => simp [ih]

theorem drop_len_append (xs ys : List Nat) : (xs ++ ys).drop xs.length = ys := by
  induction xs with
  | nil => simp
  | cons a t ih => simp [ih]

theorem parseLen_round (n : Nat) (rest : List Nat) (hn : n < 2 ^ 31) :
    parseLen (derLen n ++ rest) = some (n, rest) := by
  unfold derLen
  split
  · rename_i hlt
    simp [parseLen, hlt]
  · rename_i hge
    obtain ⟨h, t, heq, hpos⟩ := natToBE_head n
    have hL : 1 ≤ (natToBE n).length := by rw [heq]; simp
    simp only [List.cons_append, parseLen]
    rw [if_neg (by omega), if_neg (by omega)]
    rw [List.length_append]
    rw [if_neg (by omega)]
    have htake : (natToBE n ++ rest).take (128 + (natToBE n).length - 128) = natToBE n := by
      have : 128 + (natToBE n).length - 128 = (natToBE n).length := by omega
      rw [this, take_len_append]
    have hdrop : (natToBE n ++ rest).drop (128 + (natToBE n).length - 128) = rest := by
      have : 128 + (natToBE n).length - 128 = (natToBE n).length := by omega
      rw [this, drop_len_append]
    simp only [htake, hdrop, beVal_natToBE]
    rw [if_neg (by rw [heq]; have := hpos (by omega); simp; omega)]
    rw [if_neg (by omega)]
    rw [if_neg (by omega)]

theorem parseElem_round (tag : Nat) (s rest : List Nat) (hs : s.length < 2 ^ 31) :
    parseElem tag (tag :: derLen s.length ++ s ++ rest) = some (s, rest) := by
  have hp : parseLen (derLen s.length ++ (s ++ rest)) = some (s.length, s ++ rest) :=
    parseLen_round _ _ hs
  have hlen : ¬ (s ++ rest).length < s.length := by simp
  simp [parseElem, List.append_assoc, hp, hlen, take_len_append, drop_len_append]

theorem derLen_length_le_five (n : Nat) (hn : n < 2 ^ 31) : (derLen n).length ≤ 5 := by
  unfold derLen
  split
  · simp
  · have h4 : n < 256 ^ (3 + 1) := by
      have : (2 : Nat) ^ 31 ≤ 256 ^ (3 + 1) := by norm_num
      omega
    have := natToBE_length_le 3 n h4
    simp
    omega

theorem asn1Unmarshal_round (p : boxPackage) (s : List Nat)
    (hlen : p.LockedKey.length + p.Box.length + 12 < 2 ^ 31) :
    asn1Unmarshal (asn1Marshal p ++ s) = some p := by
  have hlk : p.LockedKey.length < 2 ^ 31 := by omega
  have hbx : p.Box.length < 2 ^ 31 := by omega
  have d1 := derLen_length_le_five p.LockedKey.length hlk
  have d2 := derLen_length_le_five p.Box.length hbx
  have hinner : (derOctet p.LockedKey ++ derOctet p.Box).length < 2 ^ 31 := by
    simp [derOctet, List.length_append]
    omega
  have h1 : parseElem 48 (asn1Marshal p ++ s) =
      some (derOctet p.LockedKey ++ derOctet p.Box, s) := by
    rw [show asn1Marshal p ++ s =
        48 :: derLen (derOctet p.LockedKey ++ derOctet p.Box).length ++
          (derOctet p.LockedKey ++ derOctet p.Box) ++ s from by
      simp [asn1Marshal]]
    exact parseElem_round _ _ _ hinner
  have h2 : parseElem 4 (derOctet p.LockedKey ++ derOctet p.Box) =
      some (p.LockedKey, derOctet p.Box) := by
    rw [show derOctet p.LockedKey ++ derOctet p.Box =
        4 :: derLen p.LockedKey.length ++ p.LockedKey ++ derOctet p.Box from by
      simp [derOctet]]
    exact parseElem_round _ _ _ hlk
  have h3 : parseElem 4 (derOctet p.Box) = some (p.Box, []) := by
    rw [show derOctet p.Box = 4 :: derLen p.Box.length ++ p.Box ++ [] from by
      simp [derOctet]]
    exact parseElem_round _ _ _ hbx
  simp [asn1Unmarshal, h1, h2, h3]

theorem parseLen_big_none (n : Nat) (hn : 2 ^ 31 ≤ n) (rest : List Nat) :
    parseLen (derLen n ++ rest) = none := by
  unfold derLen
  split
  · omega
  · rename_i hge
    obtain ⟨h, t, heq, hpos⟩ := natToBE_head n
    have hL : 1 ≤ (natToBE n).length := by rw [heq]; simp
    simp only [List.cons_append, parseLen]
    rw [if_neg (by omega), if_neg (by omega)]
    rw [List.length_append]
    rw [if_neg (by omega)]
    have htake : (natToBE n ++ rest).take (128 + (natToBE n).length - 128) = natToBE n := by
      have : 128 + (natToBE n).length - 128 = (natToBE n).length := by omega
      rw [this, take_len_append]
    simp only [htake, beVal_natToBE]
    rw [if_neg (by rw [heq]; have := hpos (by omega); simp; omega)]
    rw [if_neg (by omega)]
    rw [if_pos (by omega)]

theorem asn1Unmarshal_big_none (lk bx s : List Nat)
    (hbig : 2 ^ 31 ≤ (derOctet lk ++ derOctet bx).length) :
    asn1Unmarshal (asn1Marshal ⟨lk, bx⟩ ++ s) = none := by
  have h1 : parseElem 48 (asn1Marshal ⟨lk, bx⟩ ++ s) = none := by
    have hp := parseLen_big_none ((derOctet lk ++ derOctet bx).length) hbig
      ((derOctet lk ++ derOctet bx) ++ s)
    rw [show asn1Marshal ⟨lk, bx⟩ ++ s =
        48 :: (derLen (derOctet lk ++ derOctet bx).length ++
          ((derOctet lk ++ derOctet bx) ++ s)) from by simp [asn1Marshal]]
    simp only [parseElem, if_pos rfl, hp, ite_self]
  simp [asn1Unmarshal, h1]

/-- Standard base64 alphabet: index to ASCII code. -/
def b64Char (i : Nat) : Nat :=
  if i < 26 then 65 + i
  else if i < 52 then 97 + (i - 26)
  else if i < 62 then 48 + (i - 52)
  else if i = 62 then 43
  else 47

/-- Inverse of the base64 alphabet (`none` for non-alphabet codes). -/
def b64Index (c : Nat) : Option Nat :=
  if 65 ≤ c ∧ c ≤ 90 then some (c - 65)
  else if 97 ≤ c ∧ c ≤ 122 then some (c - 97 + 26)
  else if 48 ≤ c ∧ c ≤ 57 then some (c - 48 + 52)
  else if c = 43 then some 62
  else if c = 47 then some 63
  else none

/-- Model of Go `base64.StdEncoding` encoding, with `=` padding (code 61). -/
def b64EncodeBytes : List Nat → List Nat
  | [] => []
  | [a] => [b64Char (a / 4), b64Char (a % 4 * 16), 61, 61]
  | [a, b] => [b64Char (a / 4), b64Char (a % 4 * 16 + b / 16), b64Char (b % 16 * 4), 61]
  | a :: b :: c :: rest =>
    b64Char (a / 4) :: b64Char (a % 4 * 16 + b / 16) ::
      b64Char (b % 16 * 4 + c / 64) :: b64Char (c % 64) :: b64EncodeBytes rest

/-- Model of Go `base64.StdEncoding` decoding: four-character groups,
padding only at the end of the input; as in Go's default (non-strict)
mode, trailing padding bits are not checked. -/
def b64DecodeBytes : List Nat → Option (List Nat)
  | [] => some []
  | c1 :: c2 :: c3 :: c4 :: rest =>
    match b64Index c1, b64Index c2 with
    | some i1, some i2 =>
      if c3 = 61 then
        if c4 = 61 ∧ rest = [] then some [i1 * 4 + i2 / 16] else none
      else if c4 = 61 then
        if rest = [] then
          match b64Index c3 with
          | some i3 => some [i1 * 4 + i2 / 16, i2 % 16 * 16 + i3 / 4]
          | none => none
        else none
      else
        match b64Index c3, b64Index c4 with
        | some i3, some i4 =>
          match b64DecodeBytes rest with
          | some bs =>
            some ((i1 * 4 + i2 / 16) :: (i2 % 16 * 16 + i3 / 4) :: (i3 % 4 * 64 + i4) :: bs)
          | none => none
        | _, _ => none
    | _, _ => none
  | _ => none

theorem b64Index_b64Char : ∀ i < 64, b64Index (b64Char i) = some i := by decide

theorem b64Char_ne (i : Nat) :
    b64Char i ≠ 61 ∧ b64Char i ≠ 45 ∧ b64Char i ≠ 10 ∧ b64Char i ≠ 13 := by
  unfold b64Char
  split_ifs <;> omega

theorem b64_roundtrip : ∀ bs : List Nat, (∀ b ∈ bs, b < 256) →
    b64DecodeBytes (b64EncodeBytes bs) = some bs
  | [], _ => rfl
  | [a], h => by
    have ha : a < 256 := h a (by simp)
    have e1 := b64Index_b64Char (a / 4) (by omega)
    have e2 := b64Index_b64Char (a % 4 * 16) (by omega)
    show b64DecodeBytes [b64Char (a / 4), b64Char (a % 4 * 16), 61, 61] = some [a]
    simp [b64DecodeBytes, e1, e2]
    omega
  | [a, b], h => by
    have ha : a < 256 := h a (by simp)
    have hb : b < 256 := h b (by simp)
    have e1 := b64Index_b64Char (a / 4) (by omega)
    have e2 := b64Index_b64Char (a % 4 * 16 + b / 16) (by omega)
    have e3 := b64Index_b64Char (b % 16 * 4) (by omega)
    have n3 := (b64Char_ne (b % 16 * 4)).1
    show b64DecodeBytes
        [b64Char (a / 4), b64Char (a % 4 * 16 + b / 16), b64Char (b % 16 * 4), 61] =
      some [a, b]
    simp [b64DecodeBytes, e1, e2, e3, n3]
    omega
  | a :: b :: c :: rest, h => by
    have ha : a < 256 := h a (by simp)
    have hb : b < 256 := h b (by simp)
    have hc : c < 256 := h c (by simp)
    have ih := b64_roundtrip rest (fun x hx => h x (by simp [hx]))
    have e1 := b64Index_b64Char (a / 4) (by omega)
    have e2 := b64Index_b64Char (a % 4 * 16 + b / 16) (by omega)
    have e3 := b64Index_b64Char (b % 16 * 4 + c / 64) (by omega)
    have e4 := b64Index_b64Char (c % 64) (by omega)
    have n3 := (b64Char_ne (b % 16 * 4 + c / 64)).1
    have n4 := (b64Char_ne (c % 64)).1
    show b64DecodeBytes (b64Char (a / 4) :: b64Char (a % 4 * 16 + b / 16) ::
        b64Char (b % 16 * 4 + c / 64) :: b64Char (c % 64) :: b64EncodeBytes rest) =
      some (a :: b :: c :: rest)
    simp [b64DecodeBytes, e1, e2, e3, e4, n3, n4, ih]
    omega

theorem mem_b64Encode : ∀ (bs : List Nat), ∀ c ∈ b64EncodeBytes bs,
    (∃ i, c = b64Char i) ∨ c = 61
  | [], c, hc => by simp [b64EncodeBytes] at hc
  | [a], c, hc => by
    simp only [b64EncodeBytes, List.mem_cons, List.mem_singleton] at hc
    rcases hc with h | h | h | h
    · exact Or.inl ⟨_, h⟩
    · exact Or.inl ⟨_, h⟩
    · exact Or.inr h
    · simp at h
      exact Or.inr h
  | [a, b], c, hc => by
    simp only [b64EncodeBytes, List.mem_cons, List.mem_singleton] at hc
    rcases hc with h | h | h | h
    · exact Or.inl ⟨_, h⟩
    · exact Or.inl ⟨_, h⟩
    · exact Or.inl ⟨_, h⟩
    · simp at h
      exact Or.inr h
  | a :: b :: d :: rest, c, hc => by
    simp only [b64EncodeBytes, List.mem_cons] at hc
    rcases hc with h | h | h | h | h
    · exact Or.inl ⟨_, h⟩
    · exact Or.inl ⟨_, h⟩
    · exact Or.inl ⟨_, h⟩
    · exact Or.inl ⟨_, h⟩
    · exact mem_b64Encode rest c h

/-- `pem.EncodeToMemory` line folding: the base64 text in 64-column lines,
each terminated by a newline (code 10). -/
def wrap64 (s : List Nat) : List Nat :=
  if h : s.length ≤ 64 then (if s = [] then [] else s ++ [10])
  else s.take 64 ++ 10 :: wrap64 (s.drop 64)
termination_by s.length
decreasing_by simp; omega

/-- True of codes that are not a newline (10) or carriage return (13). -/
def notNL (b : Nat) : Bool := b != 10 && b != 13

theorem mem_wrap64 : ∀ (fuel : Nat) (s : List Nat), s.length ≤ fuel →
    ∀ c ∈ wrap64 s, c ∈ s ∨ c = 10
  | 0, s, hf, c, hc => by
    have hs : s = [] := List.eq_nil_of_length_eq_zero (by omega)
    subst hs
    rw [wrap64] at hc
    simp at hc
  | fuel + 1, s, hf, c, hc => by
    rw [wrap64] at hc
    split at hc
    · split at hc
      · simp at hc
      · simp at hc
        rcases hc with h | h
        · exact Or.inl h
        · exact Or.inr h
    · rename_i hlong
      simp only [List.mem_append, List.mem_cons] at hc
      rcases hc with h | h | h
      · exact Or.inl (List.take_subset _ _ h)
      · exact Or.inr h
      · rcases mem_wrap64 fuel (s.drop 64) (by simp; omega) c h with h2 | h2
        · exact Or.inl (List.drop_subset _ _ h2)
        · exact Or.inr h2

theorem filter_wrap64 : ∀ (fuel : Nat) (s : List Nat), s.length ≤ fuel →
    (∀ c ∈ s, notNL c = true) → (wrap64 s).filter notNL = s
  | 0, s, hf, hs => by
    have h0 : s = [] := List.eq_nil_of_length_eq_zero (by omega)
    subst h0
    rw [wrap64]
    simp
  | fuel + 1, s, hf, hs => by
    rw [wrap64]
    split
    · split
      · rename_i h
        rw [h]
        rfl
      · rw [List.filter_append, List.filter_eq_self.mpr hs]
        simp [notNL]
    · rename_i hlong
      have hrec := filter_wrap64 fuel (s.drop 64) (by simp; omega)
        (fun c hc => hs c (List.drop_subset _ _ hc))
      rw [List.filter_append]
      rw [List.filter_eq_self.mpr (fun c hc => hs c (List.take_subset _ _ hc))]
      rw [show List.filter notNL (10 :: wrap64 (s.drop 64)) =
          List.filter notNL (wrap64 (s.drop 64)) from by simp [notNL]]
      rw [hrec, List.take_append_drop]

/-- First occurrence of `pat` in the input: the bytes before the match and
the bytes after it. -/
def findSeq (pat : List Nat) : List Nat → Option (List Nat × List Nat)
  | [] => if pat = [] then some ([], []) else none
  | a :: rest =>
    if pat.isPrefixOf (a :: rest) then some ([], (a :: rest).drop pat.length)
    else
      match findSeq pat rest with
      | some (pre, post) => some (a :: pre, post)
      | none => none

theorem isPrefixOf_append_self (p r : List Nat) : p.isPrefixOf (p ++ r) = true := by
  induction p with
  | nil => simp [List.isPrefixOf]
  | cons a t ih => simp [List.isPrefixOf, ih]

theorem findSeq_split (pat pre post : List Nat) (hne : pat ≠ [])
    (hpre : ∀ c ∈ pre, c ≠ pat.headD 0)
    (hpost : pat.isPrefixOf post = true) :
    findSeq pat (pre ++ post) = some (pre, post.drop pat.length) := by
  induction pre with
  | nil =>
    cases post with
    | nil =>
      cases pat with
      | nil => exact absurd rfl hne
      | cons c0 t => simp [List.isPrefixOf] at hpost
    | cons b bs =>
      simp only [List.nil_append, findSeq]
      rw [if_pos hpost]
  | cons a pre ih =>
    obtain ⟨c0, t, rfl⟩ : ∃ c0 t, pat = c0 :: t := by
      cases pat with
      | nil => exact absurd rfl hne
      | cons c0 t => exact ⟨c0, t, rfl⟩
    have ha : a ≠ c0 := by
      have := hpre a (by simp)
      simpa using this
    simp only [List.cons_append, findSeq]
    rw [if_neg (by simp [List.isPrefixOf]; intro h; exact absurd h.symm ha)]
    rw [show pre.append post = pre ++ post from rfl]
    rw [ih (fun c hc => hpre c (by simp [hc]))]

/-- ASCII bytes of the PEM begin marker prefix. -/
def bBEGIN : List Nat := [45, 45, 45, 45, 45, 66, 69, 71, 73, 78, 32]

/-- ASCII bytes of the PEM end marker prefix. -/
def bEND : List Nat := [45, 45, 45, 45, 45, 69, 78, 68, 32]

/-- ASCII bytes of five dashes followed by a newline. -/
def bDASHNL : List Nat := [45, 45, 45, 45, 45, 10]

/-- ASCII bytes of five dashes. -/
def bDASH5 : List Nat := [45, 45, 45, 45, 45]

/-- ASCII bytes of the container armor label, "SSHBOX ENCRYPTED FILE". -/
def tyBox : List Nat :=
  [83, 83, 72, 66, 79, 88, 32, 69, 78, 67, 82, 89, 80, 84, 69, 68, 32, 70, 73, 76, 69]

/-- ASCII bytes of the private-key armor label, "RSA PRIVATE KEY". -/
def tyPriv : List Nat := [82, 83, 65, 32, 80, 82, 73, 86, 65, 84, 69, 32, 75, 69, 89]

/-- Model of `pem.EncodeToMemory` for a block with no header lines, as
sshbox builds: begin marker line, folded base64 body, end marker line. -/
def pemEncode (ty bs : List Nat) : List Nat :=
  bBEGIN ++ (ty ++ (bDASHNL ++ (wrap64 (b64EncodeBytes bs) ++ (bEND ++ (ty ++ bDASHNL)))))

/-- Model of `pem.Decode` on the shapes sshbox uses: locate the first armor
envelope, require the end label to match the begin label, strip newlines
from the body and base64-decode it.  Header lines are not modelled
(sshbox never produces them). -/
def pemDecode (data : List Nat) : Option (List Nat × List Nat) :=
  match findSeq bBEGIN data with
  | none => none
  | some (_, afterBegin) =>
    match findSeq bDASHNL afterBegin with
    | none => none
    | some (ty, body0) =>
      match findSeq bEND body0 with
      | none => none
      | some (body, afterEnd) =>
        match findSeq bDASH5 afterEnd with
        | none => none
        | some (ty2, _) =>
          if ty2 = ty then
            match b64DecodeBytes (body.filter notNL) with
            | some bs => some (ty, bs)
            | none => none
          else none

theorem pemDecode_pemEncode (ty bs : List Nat)
    (hty : ∀ c ∈ ty, c ≠ 45) (hbs : ∀ b ∈ bs, b < 256) :
    pemDecode (pemEncode ty bs) = some (ty, bs) := by
  have hbody : ∀ c ∈ wrap64 (b64EncodeBytes bs), c ≠ 45 := by
    intro c hc
    rcases mem_wrap64 (b64EncodeBytes bs).length _ le_rfl c hc with h | h
    · rcases mem_b64Encode _ c h with ⟨i, rfl⟩ | rfl
      · exact (b64Char_ne i).2.1
      · omega
    · omega
  have h1 : findSeq bBEGIN (pemEncode ty bs) =
      some ([], ty ++ (bDASHNL ++ (wrap64 (b64EncodeBytes bs) ++
        (bEND ++ (ty ++ bDASHNL))))) := by
    rw [show pemEncode ty bs = [] ++ (bBEGIN ++ (ty ++ (bDASHNL ++
        (wrap64 (b64EncodeBytes bs) ++ (bEND ++ (ty ++ bDASHNL)))))) from by
      simp [pemEncode]]
    rw [findSeq_split bBEGIN [] _ (by simp [bBEGIN]) (by simp)
      (isPrefixOf_append_self _ _)]
    rw [show bBEGIN.length = bBEGIN.length from rfl, drop_len_append]
  have h2 : findSeq bDASHNL (ty ++ (bDASHNL ++ (wrap64 (b64EncodeBytes bs) ++
      (bEND ++ (ty ++ bDASHNL))))) =
      some (ty, wrap64 (b64EncodeBytes bs) ++ (bEND ++ (ty ++ bDASHNL))) := by
    rw [findSeq_split bDASHNL ty _ (by simp [bDASHNL])
      (by intro c hc; rw [show bDASHNL.headD 0 = 45 from rfl]; exact hty c hc)
      (isPrefixOf_append_self _ _)]
    rw [show bDASHNL.length = bDASHNL.length from rfl, drop_len_append]
  have h3 : findSeq bEND (wrap64 (b64EncodeBytes bs) ++ (bEND ++ (ty ++ bDASHNL))) =
      some (wrap64 (b64EncodeBytes bs), ty ++ bDASHNL) := by
    rw [findSeq_split bEND _ _ (by simp [bEND])
      (by intro c hc; rw [show bEND.headD 0 = 45 from rfl]; exact hbody c hc)
      (isPrefixOf_append_self _ _)]
    rw [drop_len_append]
  have h4 : findSeq bDASH5 (ty ++ bDASHNL) = some (ty, [10]) := by
    rw [findSeq_split bDASH5 ty bDASHNL (by simp [bDASH5])
      (by intro c hc; rw [show bDASH5.headD 0 = 45 from rfl]; exact hty c hc)
      (by rfl)]
    rfl
  have h5 : (wrap64 (b64EncodeBytes bs)).filter notNL = b64EncodeBytes bs := by
    apply filter_wrap64 (b64EncodeBytes bs).length _ le_rfl
    intro c hc
    rcases mem_b64Encode _ c hc with ⟨i, rfl⟩ | rfl
    · have := b64Char_ne i
      simp [notNL]
      omega
    · simp [notNL]
  simp [pemDecode, h1, h2, h3, h4, h5, b64_roundtrip bs hbs]

theorem asn1Unmarshal_pemEncode (ty bs : List Nat) :
    asn1Unmarshal (pemEncode ty bs) = none := by
  rw [show pemEncode ty bs = 45 :: ([45, 45, 45, 45, 66, 69, 71, 73, 78, 32] ++
      (ty ++ (bDASHNL ++ (wrap64 (b64EncodeBytes bs) ++
        (bEND ++ (ty ++ bDASHNL)))))) from by simp [pemEncode, bBEGIN]]
  simp [asn1Unmarshal, parseElem]

theorem mem_derLen_lt (n : Nat) (hn : n < 256 ^ 127) : ∀ b ∈ derLen n, b < 256 := by
  unfold derLen
  split
  · intro b hb
    simp at hb
    omega
  · intro b hb
    have hlen : (natToBE n).length ≤ 127 := natToBE_length_le 126 n (by exact hn)
    simp at hb
    rcases hb with hb | hb
    · omega
    · exact natToBE_lt n b hb

theorem derLen_length_le (n : Nat) (hn : n < 256 ^ 127) : (derLen n).length ≤ 128 := by
  unfold derLen
  split
  · simp
  · have := natToBE_length_le 126 n (by exact hn)
    simp
    omega

theorem mem_derOctet_lt (s : List Nat) (hs : ∀ b ∈ s, b < 256)
    (hlen : s.length < 256 ^ 127) : ∀ b ∈ derOctet s, b < 256 := by
  intro b hb
  simp [derOctet] at hb
  rcases hb with hb | hb | hb
  · omega
  · exact mem_derLen_lt _ hlen b hb
  · exact hs b hb

theorem pow_fact_aux : (2 : Nat) ^ 62 + 258 < 256 ^ 127 := by
  have h1 : (256 : Nat) ^ 127 = 2 ^ 1016 := by
    rw [show (256 : Nat) = 2 ^ 8 from by norm_num, ← pow_mul]
  rw [h1]
  have h2 : (2 : Nat) ^ 62 + 258 < 2 ^ 63 := by norm_num
  have h3 : (2 : Nat) ^ 63 ≤ 2 ^ 1016 := Nat.pow_le_pow_right (by norm_num) (by norm_num)
  omega

theorem mem_asn1Marshal_lt (p : boxPackage)
    (hlk : ∀ b ∈ p.LockedKey, b < 256) (hbx : ∀ b ∈ p.Box, b < 256)
    (hlen : p.LockedKey.length + p.Box.length + 12 < 2 ^ 31) :
    ∀ b ∈ asn1Marshal p, b < 256 := by
  have hpow := pow_fact_aux
  have hlk256 : p.LockedKey.length < 256 ^ 127 := by omega
  have hbx256 : p.Box.length < 256 ^ 127 := by omega
  have hinner : (derOctet p.LockedKey ++ derOctet p.Box).length < 256 ^ 127 := by
    have d1 := derLen_length_le p.LockedKey.length hlk256
    have d2 := derLen_length_le p.Box.length hbx256
    simp [derOctet, List.length_append]
    omega
  intro b hb
  rw [show asn1Marshal p = 48 :: derLen (derOctet p.LockedKey ++ derOctet p.Box).length ++
      (derOctet p.LockedKey ++ derOctet p.Box) from rfl] at hb
  simp only [List.mem_cons, List.mem_append] at hb
  rcases hb with (rfl | hb) | hb | hb
  · omega
  · exact mem_derLen_lt _ hinner b hb
  · exact mem_derOctet_lt _ hlk hlk256 b hb
  · exact mem_derOctet_lt _ hbx hbx256 b hb

/-- Error classification of `unpackageBox`. -/
inductive BoxErr where
  /-- the "invalid box" error: neither decode attempt located a container,
  or the envelope label did not match -/
  | invalidBox
  /-- a structural error from DER-decoding the armored body -/
  | asn1Error
  deriving DecidableEq

/-- Model of `packageBox` (sshbox.go lines 242-258): DER-encode the two
fields; when `armour` is set, wrap the DER record in a PEM envelope with
the label "SSHBOX ENCRYPTED FILE". -/
def packageBox (lockedKey box : List Nat) (armour : Bool) : List Nat :=
  let pkg := asn1Marshal ⟨lockedKey, box⟩
  if armour then pemEncode tyBox pkg else pkg

/-- Model of `unpackageBox` (sshbox.go lines 299-315): first try the DER
decode; only if that fails, look for a PEM envelope whose type is
"SSHBOX ENCRYPTED FILE" and DER-decode its body. -/
def unpackageBox (pkg : List Nat) : Except BoxErr (List Nat × List Nat) :=
  match asn1Unmarshal pkg with
  | some p => .ok (p.LockedKey, p.Box)
  | none =>
    match pemDecode pkg with
    | none => .error .invalidBox
    | some (ty, bs) =>
      if ty = tyBox then
        match asn1Unmarshal bs with
        | some p => .ok (p.LockedKey, p.Box)
        | none => .error .asn1Error
      else .error .invalidBox

theorem packageBox_unpackageBox (lockedKey box : List Nat) (armour : Bool)
    (hlk : ∀ b ∈ lockedKey, b < 256) (hbx : ∀ b ∈ box, b < 256)
    (hlen : lockedKey.length + box.length + 12 < 2 ^ 31) :
    unpackageBox (packageBox lockedKey box armour) = .ok (lockedKey, box) := by
  have h := asn1Unmarshal_round ⟨lockedKey, box⟩ [] hlen
  rw [List.append_nil] at h
  cases armour with
  | false => simp [packageBox, unpackageBox, h]
  | true =>
    have hm : ∀ b ∈ asn1Marshal ⟨lockedKey, box⟩, b < 256 :=
      mem_asn1Marshal_lt _ hlk hbx hlen
    have hpem := pemDecode_pemEncode tyBox (asn1Marshal ⟨lockedKey, box⟩) (by decide) hm
    have hnone := asn1Unmarshal_pemEncode tyBox (asn1Marshal ⟨lockedKey, box⟩)
    simp [packageBox, unpackageBox, hnone, hpem, h]

/-- C2 (amended): for any pair of byte strings `lockedKey`, `box` whose
encoded record fits Go's ASN.1 parse cap — total field length plus the
12 bytes of DER overhead below `2 ^ 31` — and either armour setting,
decoding the encoded container succeeds and returns the same pair, with
no external hint about which armour setting was used (the decoder takes
only the bytes).  For larger fields the program's decoder rejects the
record ("length too large"), see the counterexample. -/
theorem container_roundtrip (lockedKey box : List Nat) (armour : Bool)
    (hlk : ∀ b ∈ lockedKey, b < 256) (hbx : ∀ b ∈ box, b < 256)
    (hlen : lockedKey.length + box.length + 12 < 2 ^ 31) :
    unpackageBox (packageBox lockedKey box armour) = .ok (lockedKey, box) :=
  packageBox_unpackageBox lockedKey box armour hlk hbx hlen

/-- Witness for C2: a concrete container round-trips through the armored
encoding. -/
theorem container_roundtrip_witness :
    unpackageBox (packageBox [1] [2] true) = .ok ([1], [2]) ∧
    unpackageBox (packageBox [1] [2] false) = .ok ([1], [2]) :=
  ⟨container_roundtrip [1] [2] true (by decide) (by decide) (by norm_num),
   container_roundtrip [1] [2] false (by decide) (by decide) (by norm_num)⟩

/-- A field of `2 ^ 31` zero bytes: the smallest field size whose DER
element Go's ASN.1 parser rejects with "length too large". -/
def bigField : List Nat := List.replicate (2 ^ 31) 0

theorem findSeq_none (c0 : Nat) (t : List Nat) :
    ∀ data : List Nat, (∀ c ∈ data, c ≠ c0) → findSeq (c0 :: t) data = none
  | [], _h => by simp [findSeq]
  | a :: rest, h => by
    have ha : a ≠ c0 := h a (by simp)
    have hrec := findSeq_none c0 t rest (fun c hc => h c (by simp [hc]))
    simp only [findSeq, hrec]
    rw [if_neg (by simp [List.isPrefixOf]; intro hh; exact absurd hh.symm ha)]

theorem pemDecode_none (data : List Nat) (h : ∀ c ∈ data, c ≠ 45) :
    pemDecode data = none := by
  have h1 : findSeq bBEGIN data = none := by
    rw [show bBEGIN = 45 :: [45, 45, 45, 45, 66, 69, 71, 73, 78, 32] from rfl]
    exact findSeq_none _ _ data h
  simp [pemDecode, h1]

theorem mem_marshal_ne45 (lk bx : List Nat)
    (hlk : ∀ c ∈ lk, c ≠ 45) (hbx : ∀ c ∈ bx, c ≠ 45)
    (hdl : ∀ c ∈ derLen lk.length, c ≠ 45)
    (hdb : ∀ c ∈ derLen bx.length, c ≠ 45)
    (hdi : ∀ c ∈ derLen (derOctet lk ++ derOctet bx).length, c ≠ 45) :
    ∀ c ∈ asn1Marshal ⟨lk, bx⟩, c ≠ 45 := by
  intro c hc
  rw [show asn1Marshal ⟨lk, bx⟩ = 48 :: derLen (derOctet lk ++ derOctet bx).length ++
      (derOctet lk ++ derOctet bx) from rfl] at hc
  simp only [List.mem_cons, List.mem_append, derOctet] at hc
  rcases hc with (rfl | hc) | ((rfl | hc) | hc) | ((rfl | hc) | hc)
  · omega
  · exact hdi c hc
  · omega
  · exact hdl c hc
  · exact hlk c hc
  · omega
  · exact hdb c hc
  · exact hbx c hc

/-- On a record whose DER SEQUENCE body reaches the ASN.1 length cap,
`unpackageBox` fails through the invalid-box path: the DER parse rejects
the length, and no PEM envelope is present when no byte is a dash. -/
theorem unpackageBox_bigPair (lk bx s : List Nat)
    (hlk : ∀ c ∈ lk, c ≠ 45) (hbx : ∀ c ∈ bx, c ≠ 45) (hs : ∀ c ∈ s, c ≠ 45)
    (hdl : ∀ c ∈ derLen lk.length, c ≠ 45)
    (hdb : ∀ c ∈ derLen bx.length, c ≠ 45)
    (hdi : ∀ c ∈ derLen (derOctet lk ++ derOctet bx).length, c ≠ 45)
    (hbig : 2 ^ 31 ≤ (derOctet lk ++ derOctet bx).length) :
    unpackageBox (asn1Marshal ⟨lk, bx⟩ ++ s) = .error .invalidBox := by
  have h45 : ∀ c ∈ asn1Marshal ⟨lk, bx⟩ ++ s, c ≠ 45 := by
    intro c hc
    rcases List.mem_append.mp hc with hc | hc
    · exact mem_marshal_ne45 lk bx hlk hbx hdl hdb hdi c hc
    · exact hs c hc
  simp [unpackageBox, asn1Unmarshal_big_none lk bx s hbig, pemDecode_none _ h45]

theorem bigField_ne45 : ∀ c ∈ bigField, c ≠ 45 := by
  intro c hc
  have := List.eq_of_mem_replicate (show c ∈ List.replicate (2 ^ 31) 0 from hc)
  omega

theorem bigField_length : bigField.length = 2 ^ 31 := by
  rw [bigField, List.length_replicate]

theorem derLen_2p31 : derLen (2 ^ 31) = [132, 128, 0, 0, 0] := by
  simp [derLen, natToBE]

theorem derLen_2p31p8 : derLen (2 ^ 31 + 8) = [132, 128, 0, 0, 8] := by
  simp [derLen, natToBE]

theorem derLen_2p31p9 : derLen (2 ^ 31 + 9) = [132, 128, 0, 0, 9] := by
  simp [derLen, natToBE]

theorem derOctet_bigField : derOctet bigField = 4 :: derLen (2 ^ 31) ++ bigField := by
  show 4 :: derLen bigField.length ++ bigField = _
  rw [bigField_length]

theorem derOctet_one : derOctet [1] = [4, 1, 1] := rfl

theorem innerLen_bigField :
    (derOctet bigField ++ derOctet ([] : List Nat)).length = 2 ^ 31 + 8 := by
  rw [derOctet_bigField, show derOctet ([] : List Nat) = [4, 0] from rfl, derLen_2p31]
  rw [List.length_append, List.length_append, List.length_cons, bigField_length]
  rfl

theorem unpackage_bigField_invalid (s : List Nat) (hs : ∀ c ∈ s, c ≠ 45) :
    unpackageBox (asn1Marshal ⟨bigField, []⟩ ++ s) = .error .invalidBox := by
  apply unpackageBox_bigPair
  · exact bigField_ne45
  · intro c hc
    exact absurd hc (List.not_mem_nil c)
  · exact hs
  · rw [bigField_length, derLen_2p31]
    decide
  · decide
  · rw [innerLen_bigField, derLen_2p31p8]
    decide
  · rw [innerLen_bigField]
    omega

/-- Counterexample for C2: the container whose `lockedKey` is `2 ^ 31`
zero bytes encodes fine, but decoding its own encoding fails with the
"invalid box" error instead of returning the container. -/
theorem container_roundtrip_counterexample :
    unpackageBox (packageBox bigField [] false) = .error .invalidBox ∧
    (Except.error BoxErr.invalidBox ≠
      (Except.ok (bigField, []) : Except BoxErr (List Nat × List Nat))) := by
  constructor
  · have h := unpackage_bigField_invalid []
      (by intro c hc; exact absurd hc (List.not_mem_nil c))
    rw [List.append_nil] at h
    exact h
  · exact fun h => Except.noConfusion h

/-- C9 (amended): the binary decode is not strict about trailing data:
for every binary container record within the ASN.1 length cap (total
field length plus 12 bytes of DER overhead below `2 ^ 31`), appending
any non-empty suffix leaves the decode successful with the same fields.
Records beyond the cap are rejected outright, see the counterexample. -/
theorem binary_decode_ignores_trailing (lockedKey box s : List Nat) (_hs : s ≠ [])
    (hlen : lockedKey.length + box.length + 12 < 2 ^ 31) :
    unpackageBox (packageBox lockedKey box false ++ s) = .ok (lockedKey, box) ∧
    unpackageBox (packageBox lockedKey box false) = .ok (lockedKey, box) := by
  constructor
  · have h := asn1Unmarshal_round ⟨lockedKey, box⟩ s hlen
    simp [packageBox, unpackageBox, h]
  · have h := asn1Unmarshal_round ⟨lockedKey, box⟩ [] hlen
    rw [List.append_nil] at h
    simp [packageBox, unpackageBox, h]

/-- Witness for C9 at a concrete record and suffix. -/
theorem binary_decode_ignores_trailing_witness :
    unpackageBox (packageBox [1] [2] false ++ [0]) = .ok ([1], [2]) ∧
    unpackageBox (packageBox [1] [2] false) = .ok ([1], [2]) :=
  binary_decode_ignores_trailing [1] [2] [0] (by decide) (by norm_num)

/-- Counterexample for C9: a well-formed binary record with a `2 ^ 31`
byte field, followed by the non-empty suffix `[0]`, does not decode — the
parser rejects the record's length before ever reaching the trailing
data. -/
theorem binary_decode_ignores_trailing_counterexample :
    unpackageBox (packageBox bigField [] false ++ [0]) = .error .invalidBox := by
  have h := unpackage_bigField_invalid [0] (by intro c hc; simp at hc; omega)
  exact h

/-- C4: when the direct DER parse fails and any PEM envelope found does
not carry the label "SSHBOX ENCRYPTED FILE" (including when no envelope
is found at all), `unpackageBox` fails with the "invalid box" error; and
the DER attempt comes first: whenever it succeeds its result is returned,
so its failure only triggers the armored fallback. -/
theorem unpackage_invalid_container (pkg : List Nat)
    (hbin : asn1Unmarshal pkg = none)
    (hpem : ∀ ty bs, pemDecode pkg = some (ty, bs) → ty ≠ tyBox) :
    unpackageBox pkg = .error .invalidBox ∧
    ∀ (q : List Nat) (p : boxPackage), asn1Unmarshal q = some p →
      unpackageBox q = .ok (p.LockedKey, p.Box) := by
  constructor
  · cases hp : pemDecode pkg with
    | none => simp [unpackageBox, hbin, hp]
    | some tb =>
      obtain ⟨ty, bs⟩ := tb
      simp [unpackageBox, hbin, hp, hpem ty bs hp]
  · intro q p hq
    simp [unpackageBox, hq]

/-- Witness for C4 at the one-byte input `[0]`, which neither decode
attempt accepts. -/
theorem unpackage_invalid_container_witness :
    unpackageBox [0] = .error .invalidBox ∧
    ∀ (q : List Nat) (p : boxPackage), asn1Unmarshal q = some p →
      unpackageBox q = .ok (p.LockedKey, p.Box) :=
  unpackage_invalid_container [0] (by decide)
    (by
      intro ty bs h
      rw [(by decide : pemDecode [0] = (none : Option (List Nat × List Nat)))] at h
      cases h)

/-- Error classification for the encrypt/decrypt pipeline of sshbox.go.
Key loading and file I/O sit outside these core functions. -/
inductive OpErr where
  /-- `rsa.EncryptOAEP` failed ("RSA encryption failed") -/
  | rsaEncryptionFailed
  /-- `secretbox.Seal` returned not-ok ("sealing failure") -/
  | sealingFailure
  /-- `rsa.DecryptOAEP` failed ("RSA decryption failed") -/
  | rsaDecryptionFailed
  /-- `secretbox.Open` returned not-ok ("opening box failed"): the
  authentication failure of the symmetric integrity check -/
  | openingBoxFailed
  /-- `unpackageBox` failed -/
  | unpack (e : BoxErr)
  deriving DecidableEq

/-- Core of `encrypt` (sshbox.go lines 198-238) after key loading and file
reading: wrap the fresh box key with RSA-OAEP, seal the message with
secretbox, package the container.  `rsaEnc` models
`rsa.EncryptOAEP(sha256, rand, pub, ., nil)` with the loaded public key
and randomness fixed inside it, and `sbSeal` models `secretbox.Seal`;
both are external cryptographic primitives. -/
def encryptCore (rsaEnc : List Nat → Option (List Nat))
    (sbSeal : List Nat → List Nat → Option (List Nat))
    (boxKey message : List Nat) (armour : Bool) : Except OpErr (List Nat) :=
  match rsaEnc boxKey with
  | none => .error .rsaEncryptionFailed
  | some lockedKey =>
    match sbSeal message boxKey with
    | none => .error .sealingFailure
    | some box => .ok (packageBox lockedKey box armour)

/-- Core of `decrypt` (sshbox.go lines 262-294) after key loading and file
reading: unpackage the container, unwrap the box key with RSA-OAEP, open
the box.  `rsaDec` models `rsa.DecryptOAEP` with the loaded private key
and `sbOpen` models `secretbox.Open`. -/
def decryptCore (rsaDec : List Nat → Option (List Nat))
    (sbOpen : List Nat → List Nat → Option (List Nat))
    (pkg : List Nat) : Except OpErr (List Nat) :=
  match unpackageBox pkg with
  | .error e => .error (.unpack e)
  | .ok (lockedKey, box) =>
    match rsaDec lockedKey with
    | none => .error .rsaDecryptionFailed
    | some boxKey =>
      match sbOpen box boxKey with
      | none => .error .openingBoxFailed
      | some message => .ok message

theorem decryptCore_unpack_err (rsaDec : List Nat → Option (List Nat))
    (sbOpen : List Nat → List Nat → Option (List Nat)) (pkg : List Nat) (e : BoxErr)
    (h : unpackageBox pkg = .error e) :
    decryptCore rsaDec sbOpen pkg = .error (.unpack e) := by
  simp [decryptCore, h]

/-- C1 (amended): encrypt/decrypt round trip.  For any message and any
matching key pair — expressed through the contracts of the external
primitives: OAEP unwrap with the matching private key inverts the wrap,
and `secretbox.Open` under the same key inverts `secretbox.Seal` —
running the decrypt core on the output of the encrypt core recovers
exactly the original file bytes, for either armour setting, provided the
sealed container fits Go's ASN.1 parse cap (total ciphertext length plus
12 bytes of DER overhead below `2 ^ 31`).  For larger messages encrypt
succeeds but decrypt rejects its own output, see the counterexample. -/
theorem seal_open_roundtrip
    (rsaEnc rsaDec : List Nat → Option (List Nat))
    (sbSeal sbOpen : List Nat → List Nat → Option (List Nat))
    (boxKey message lockedKey box : List Nat) (armour : Bool)
    (henc : rsaEnc boxKey = some lockedKey)
    (hdec : rsaDec lockedKey = some boxKey)
    (hseal : sbSeal message boxKey = some box)
    (hopen : sbOpen box boxKey = some message)
    (hlk : ∀ b ∈ lockedKey, b < 256) (hbx : ∀ b ∈ box, b < 256)
    (hlen : lockedKey.length + box.length + 12 < 2 ^ 31) :
    encryptCore rsaEnc sbSeal boxKey message armour =
      .ok (packageBox lockedKey box armour) ∧
    decryptCore rsaDec sbOpen (packageBox lockedKey box armour) = .ok message := by
  constructor
  · simp [encryptCore, henc, hseal]
  · have h := packageBox_unpackageBox lockedKey box armour hlk hbx hlen
    simp [decryptCore, h, hdec, hopen]

/-- Witness for C1 with concrete toy primitives satisfying the contracts
at the used values. -/
theorem seal_open_roundtrip_witness :
    encryptCore (fun k => some k) (fun m k => some (m ++ k)) [1] [2, 3] true =
      .ok (packageBox [1] [2, 3, 1] true) ∧
    decryptCore (fun c => some c) (fun c k => some (c.take (c.length - k.length)))
      (packageBox [1] [2, 3, 1] true) = .ok [2, 3] :=
  seal_open_roundtrip (fun k => some k) (fun c => some c)
    (fun m k => some (m ++ k)) (fun c k => some (c.take (c.length - k.length)))
    [1] [2, 3] [1] [2, 3, 1] true rfl rfl rfl (by decide) (by decide) (by decide)
    (by norm_num)

theorem innerLen_one_bigField :
    (derOctet [1] ++ derOctet bigField).length = 2 ^ 31 + 9 := by
  rw [derOctet_one, derOctet_bigField, derLen_2p31]
  rw [List.length_append, List.length_append, List.length_cons, bigField_length]
  rfl

theorem unpackage_one_bigField_invalid :
    unpackageBox (asn1Marshal ⟨[1], bigField⟩ ++ []) = .error .invalidBox := by
  apply unpackageBox_bigPair
  · decide
  · exact bigField_ne45
  · intro c hc
    exact absurd hc (List.not_mem_nil c)
  · decide
  · rw [bigField_length, derLen_2p31]
    decide
  · rw [innerLen_one_bigField, derLen_2p31p9]
    decide
  · rw [innerLen_one_bigField]
    omega

/-- Counterexample for C1: with identity key wrap and identity secretbox
— primitives whose round-trip contracts hold for every input — a message
of `2 ^ 31` zero bytes encrypts fine, but decrypting the package the
encrypt core produced fails at the container decode instead of returning
the message. -/
theorem seal_open_roundtrip_counterexample :
    encryptCore (fun k => some k) (fun m _ => some m) [1] bigField false =
      .ok (packageBox [1] bigField false) ∧
    decryptCore (fun c => some c) (fun b _ => some b) (packageBox [1] bigField false) =
      .error (.unpack .invalidBox) := by
  constructor
  · rfl
  · have h := unpackage_one_bigField_invalid
    rw [List.append_nil] at h
    exact decryptCore_unpack_err _ _ _ _ h

/-- Flip bit `j` of a byte. -/
def flipByte (j b : Nat) : Nat :=
  if b / 2 ^ j % 2 = 1 then b - 2 ^ j else b + 2 ^ j

/-- Flip bit `i` of a byte string: bit `i % 8` of byte `i / 8`. -/
def flipBit (i : Nat) (bs : List Nat) : List Nat :=
  bs.set (i / 8) (flipByte (i % 8) (bs.getD (i / 8) 0))

theorem flipByte_lt (j b : Nat) (hj : j < 8) (hb : b < 256) : flipByte j b < 256 := by
  unfold flipByte
  interval_cases j <;> split <;> omega

theorem flipBit_length (i : Nat) (bs : List Nat) : (flipBit i bs).length = bs.length := by
  simp [flipBit]

theorem flipBit_mem_lt (i : Nat) (bs : List Nat) (h : ∀ b ∈ bs, b < 256) :
    ∀ b ∈ flipBit i bs, b < 256 := by
  intro b hb
  rcases List.mem_or_eq_of_mem_set hb with h2 | h2
  · exact h b h2
  · subst h2
    apply flipByte_lt _ _ (Nat.mod_lt _ (by norm_num))
    rcases Nat.lt_or_ge (i / 8) bs.length with hlt | hge
    · rw [List.getD_eq_getElem _ _ hlt]
      exact h _ (List.getElem_mem _)
    · rw [List.getD_eq_default _ _ hge]
      norm_num

/-- C3 (amended): tampering with the `box` field.  If the symmetric
primitive's integrity check rejects the tampered box — its contract when
any single bit of the authenticated ciphertext is altered — then
decrypting a container whose `box` field has bit `i` flipped fails with
the "failed to open box" authentication error and never returns a
message, provided the container fits Go's ASN.1 parse cap (total field
length plus 12 bytes of DER overhead below `2 ^ 31`).  For oversized
boxes the failure is the invalid-container error of the decode, not the
authentication error, see the counterexample. -/
theorem tampered_box_fails
    (rsaDec : List Nat → Option (List Nat))
    (sbOpen : List Nat → List Nat → Option (List Nat))
    (lockedKey box boxKey : List Nat) (i : Nat) (armour : Bool)
    (hlk : ∀ b ∈ lockedKey, b < 256) (hbx : ∀ b ∈ box, b < 256)
    (hlen : lockedKey.length + box.length + 12 < 2 ^ 31)
    (_hi : i < 8 * box.length)
    (hdec : rsaDec lockedKey = some boxKey)
    (hopen : sbOpen (flipBit i box) boxKey = none) :
    decryptCore rsaDec sbOpen (packageBox lockedKey (flipBit i box) armour) =
      .error .openingBoxFailed := by
  have hbx2 : ∀ b ∈ flipBit i box, b < 256 := flipBit_mem_lt i box hbx
  have hlen2 : lockedKey.length + (flipBit i box).length + 12 < 2 ^ 31 := by
    rw [flipBit_length]
    exact hlen
  have h := packageBox_unpackageBox lockedKey (flipBit i box) armour hlk hbx2 hlen2
  simp [decryptCore, h, hdec, hopen]

/-- Witness for C3: a toy authenticated primitive that accepts only the
genuine box rejects the bit-flipped box, and decrypt reports the
authentication failure. -/
theorem tampered_box_fails_witness :
    decryptCore (fun _ => some [7]) (fun c _ => if c = [5, 12] then some [5] else none)
      (packageBox [9] (flipBit 0 [5, 12]) false) = .error .openingBoxFailed :=
  tampered_box_fails (fun _ => some [7])
    (fun c _ => if c = [5, 12] then some [5] else none)
    [9] [5, 12] [7] 0 false (by decide) (by decide) (by norm_num) (by decide)
    rfl (by decide)

theorem bigField_getD : bigField.getD 0 0 = 0 := rfl

theorem bigFlip_eq : flipBit 0 bigField = bigField.set 0 1 := rfl

theorem bigFlip_ne45 : ∀ c ∈ flipBit 0 bigField, c ≠ 45 := by
  rw [bigFlip_eq]
  intro c hc
  rcases List.mem_or_eq_of_mem_set hc with h2 | h2
  · exact bigField_ne45 c h2
  · omega

theorem bigFlip_length : (flipBit 0 bigField).length = 2 ^ 31 := by
  rw [flipBit_length, bigField_length]

theorem derOctet_bigFlip :
    derOctet (flipBit 0 bigField) = 4 :: derLen (2 ^ 31) ++ flipBit 0 bigField := by
  show 4 :: derLen (flipBit 0 bigField).length ++ flipBit 0 bigField = _
  rw [bigFlip_length]

theorem innerLen_one_bigFlip :
    (derOctet [1] ++ derOctet (flipBit 0 bigField)).length = 2 ^ 31 + 9 := by
  rw [derOctet_one, derOctet_bigFlip, derLen_2p31]
  rw [List.length_append, List.length_append, List.length_cons, bigFlip_length]
  rfl

theorem unpackage_one_bigFlip_invalid :
    unpackageBox (asn1Marshal ⟨[1], flipBit 0 bigField⟩ ++ []) = .error .invalidBox := by
  apply unpackageBox_bigPair
  · decide
  · exact bigFlip_ne45
  · intro c hc
    exact absurd hc (List.not_mem_nil c)
  · decide
  · rw [bigFlip_length, derLen_2p31]
    decide
  · rw [innerLen_one_bigFlip, derLen_2p31p9]
    decide
  · rw [innerLen_one_bigFlip]
    omega

/-- Counterexample for C3: for a container whose `box` is `2 ^ 31` bytes,
flipping bit 0 of the box and decrypting fails with the invalid-container
error of the decode — not the "failed to open box" authentication error —
even though the symmetric primitive (here one that rejects everything)
honours its integrity contract. -/
theorem tampered_box_fails_counterexample :
    decryptCore (fun c => some c) (fun _ _ => none)
      (packageBox [1] (flipBit 0 bigField) false) = .error (.unpack .invalidBox) ∧
    OpErr.unpack .invalidBox ≠ OpErr.openingBoxFailed := by
  constructor
  · have h := unpackage_one_bigFlip_invalid
    rw [List.append_nil] at h
    exact decryptCore_unpack_err _ _ _ _ h
  · decide

/-- Outcome of reading one length-prefixed field of the SSH public-key
blob (sshbox.go lines 128-170): a 4-byte big-endian signed length read by
`binary.Read`, then `make([]byte, length)` and `io.ReadFull`. -/
inductive FieldRes where
  /-- the field bytes and the remaining input -/
  | ok (field rest : List Nat)
  /-- `binary.Read` failed: fewer than 4 bytes remain -/
  | errRead
  /-- `io.ReadFull` failed: fewer than `length` bytes remain -/
  | errFull
  /-- `make([]byte, length)` with a negative length: a run-time panic -/
  | crashed
  deriving DecidableEq

/-- Read a big-endian `int32` as `binary.Read(buf, binary.BigEndian,
&length)` does: four bytes, two's-complement signed. -/
def readInt32BE : List Nat → Option (Int × List Nat)
  | a :: b :: c :: d :: rest =>
    let u := ((a * 256 + b) * 256 + c) * 256 + d
    some (if u < 2 ^ 31 then (u : Int) else (u : Int) - 2 ^ 32, rest)
  | _ => none

/-- One length-prefixed field of the public-key blob. -/
def readSSHField (bs : List Nat) : FieldRes :=
  match readInt32BE bs with
  | none => .errRead
  | some (len, rest) =>
    if len < 0 then .crashed
    else if rest.length < len.toNat then .errFull
    else .ok (rest.take len.toNat) (rest.drop len.toNat)

/-- Result of parsing the decoded public-key blob (sshbox.go lines
126-175). -/
inductive PubResult where
  /-- parsed key: modulus `N` and exponent `E` as the Go code computes
  them -/
  | ok (N : Nat) (E : Int)
  /-- "couldn't decode public key": base64 decoding failed -/
  | errBase64
  /-- "failed to read public key": a length prefix was truncated -/
  | errRead
  /-- "failed to decode public key": a field body was truncated -/
  | errFull
  /-- "invalid public key": the algorithm field is not "ssh-rsa" -/
  | errUnsupportedAlgorithm
  /-- run-time panic in `make([]byte, length)` on a negative length -/
  | crashed
  deriving DecidableEq

/-- ASCII bytes of "ssh-rsa". -/
def sshRsaB : List Nat := [115, 115, 104, 45, 114, 115, 97]

/-- Go `int(new(big.Int).SetBytes(b).Int64())` on a 64-bit platform: the
low 64 bits of the value, reinterpreted as a two's-complement signed
integer. -/
def int64ofLow (n : Nat) : Int :=
  if n % 2 ^ 64 < 2 ^ 63 then ((n % 2 ^ 64 : Nat) : Int)
  else ((n % 2 ^ 64 : Nat) : Int) - 2 ^ 64

/-- Parse the base64-decoded public-key blob (sshbox.go lines 126-175):
three length-prefixed fields algorithm, exponent, modulus in that order;
the algorithm must equal "ssh-rsa"; then `N = SetBytes(modulus)` and
`E = int(SetBytes(exponent).Int64())`. -/
def parsePubBlob (kb : List Nat) : PubResult :=
  match readSSHField kb with
  | .errRead => .errRead
  | .errFull => .errFull
  | .crashed => .crashed
  | .ok alg rest1 =>
    if alg ≠ sshRsaB then .errUnsupportedAlgorithm
    else
      match readSSHField rest1 with
      | .errRead => .errRead
      | .errFull => .errFull
      | .crashed => .crashed
      | .ok expo rest2 =>
        match readSSHField rest2 with
        | .errRead => .errRead
        | .errFull => .errFull
        | .crashed => .crashed
        | .ok modl _ => .ok (beVal modl) (int64ofLow (beVal expo))

/-- C5: any blob whose first length-prefixed field parses but is not the
literal "ssh-rsa" is rejected with the "invalid public key" error, a
classification distinct from the truncation ("failed to read/decode
public key") errors. -/
theorem wrong_algorithm_rejected (kb alg rest : List Nat)
    (h : readSSHField kb = .ok alg rest) (hne : alg ≠ sshRsaB) :
    parsePubBlob kb = .errUnsupportedAlgorithm ∧
    PubResult.errUnsupportedAlgorithm ≠ .errRead ∧
    PubResult.errUnsupportedAlgorithm ≠ .errFull := by
  refine ⟨?_, by decide, by decide⟩
  simp [parsePubBlob, h, hne]

/-- Witness for C5: a blob whose algorithm field is the single byte "A". -/
theorem wrong_algorithm_rejected_witness :
    parsePubBlob [0, 0, 0, 1, 65] = .errUnsupportedAlgorithm ∧
    PubResult.errUnsupportedAlgorithm ≠ .errRead ∧
    PubResult.errUnsupportedAlgorithm ≠ .errFull :=
  wrong_algorithm_rejected [0, 0, 0, 1, 65] [65] [] (by decide) (by decide)

/-- C6: a length prefix with the high bit set is read as a negative
`int32` and `make([]byte, length)` with a negative length panics at run
time, so on the blob `ff ff ff ff` the parser crashes instead of
returning the "failed to read public key" error; a genuinely truncated
length prefix, in contrast, is handled with that error. -/
theorem negative_length_crash :
    parsePubBlob [255, 255, 255, 255] = .crashed ∧
    parsePubBlob [255, 255, 255] = .errRead := by decide

/-- 4-byte big-endian encoding of a length below `2 ^ 31`. -/
def int32BE (n : Nat) : List Nat :=
  [n / 16777216 % 256, n / 65536 % 256, n / 256 % 256, n % 256]

/-- A length-prefixed SSH wire-format field. -/
def sshField (s : List Nat) : List Nat := int32BE s.length ++ s

theorem readInt32BE_int32BE (n : Nat) (hn : n < 2 ^ 31) (rest : List Nat) :
    readInt32BE (int32BE n ++ rest) = some ((n : Int), rest) := by
  have hu : ((n / 16777216 % 256 * 256 + n / 65536 % 256) * 256 + n / 256 % 256) * 256
      + n % 256 = n := by omega
  simp only [int32BE, List.cons_append, List.nil_append, readInt32BE]
  rw [hu, if_pos hn]

theorem readSSHField_sshField (s rest : List Nat) (hs : s.length < 2 ^ 31) :
    readSSHField (sshField s ++ rest) = .ok s rest := by
  have h1 : readInt32BE (sshField s ++ rest) = some ((s.length : Int), s ++ rest) := by
    rw [show sshField s ++ rest = int32BE s.length ++ (s ++ rest) from by simp [sshField]]
    exact readInt32BE_int32BE _ hs _
  have h2 : ¬ ((s.length : Int) < 0) := by omega
  have h3 : ¬ ((s ++ rest).length < s.length) := by simp
  simp [readSSHField, h1, h2, h3, take_len_append, drop_len_append]

/-- C10: the exponent passes through a signed 64-bit integer.  A blob
with fields "ssh-rsa", `expo`, `modl` parses successfully, with `E` the
low 64 bits of the big-endian exponent value reinterpreted as a signed
integer; whenever that value fits in a signed 64-bit integer, `E` equals
it exactly, and larger values do not make the parse fail — they are
silently truncated. -/
theorem exponent_low_bits (expo modl : List Nat)
    (he : expo.length < 2 ^ 31) (hm : modl.length < 2 ^ 31) :
    parsePubBlob (sshField sshRsaB ++ (sshField expo ++ sshField modl)) =
      .ok (beVal modl) (int64ofLow (beVal expo)) ∧
    (beVal expo < 2 ^ 63 → int64ofLow (beVal expo) = (beVal expo : Int)) := by
  constructor
  · have h1 : readSSHField (sshField sshRsaB ++ (sshField expo ++ sshField modl)) =
        .ok sshRsaB (sshField expo ++ sshField modl) :=
      readSSHField_sshField _ _ (by decide)
    have h2 : readSSHField (sshField expo ++ sshField modl) = .ok expo (sshField modl) :=
      readSSHField_sshField _ _ he
    have h3 : readSSHField (sshField modl) = .ok modl [] := by
      rw [← List.append_nil (sshField modl)]
      exact readSSHField_sshField _ _ hm
    simp [parsePubBlob, h1, h2, h3]
  · intro hlt
    unfold int64ofLow
    rw [Nat.mod_eq_of_lt (by omega), if_pos hlt]

/-- Witness for C10: an eight-byte exponent of value `2 ^ 63`, which does
not fit in a signed 64-bit integer, still parses (and truncates). -/
theorem exponent_low_bits_witness :
    parsePubBlob (sshField sshRsaB ++
        (sshField [128, 0, 0, 0, 0, 0, 0, 0] ++ sshField [3])) =
      .ok (beVal [3]) (int64ofLow (beVal [128, 0, 0, 0, 0, 0, 0, 0])) ∧
    (beVal [128, 0, 0, 0, 0, 0, 0, 0] < 2 ^ 63 →
      int64ofLow (beVal [128, 0, 0, 0, 0, 0, 0, 0]) =
        (beVal [128, 0, 0, 0, 0, 0, 0, 0] : Int)) :=
  exponent_low_bits [128, 0, 0, 0, 0, 0, 0, 0] [3] (by decide) (by decide)

/-- Outcome of `loadPrivateKey` (sshbox.go lines 180-194). -/
inductive PrivResult where
  /-- `x509.ParsePKCS1PrivateKey` succeeded -/
  | ok
  /-- `os.Exit(code)` was called inside the function -/
  | exited (code : Nat)
  /-- the error from `x509.ParsePKCS1PrivateKey` is returned to the caller -/
  | err
  deriving DecidableEq

/-- Model of `loadPrivateKey`: PEM-decode the key file bytes; when no
block is found or its type is not "RSA PRIVATE KEY" the process exits
with status 1 (after printing a message); otherwise the external PKCS#1
parse (a parameter) decides between success and a returned error. -/
def loadPrivateKeyModel (parsePKCS1 : List Nat → Option Unit) (kb : List Nat) :
    PrivResult :=
  match pemDecode kb with
  | none => .exited 1
  | some (ty, bs) =>
    if ty = tyPriv then
      match parsePKCS1 bs with
      | some _ => .ok
      | none => .err
    else .exited 1

/-- Counterexample for C7: on a key file with no armor envelope the
function does not return an error to its caller — it terminates the
process with exit status 1. -/
theorem private_key_exit_counterexample :
    loadPrivateKeyModel (fun _ => none) [] = .exited 1 ∧
    PrivResult.exited 1 ≠ .err := by
  constructor
  · rfl
  · decide

/-- C7 (amended): when the armor envelope is absent or its type label is
not "RSA PRIVATE KEY", the process terminates with exit status 1 inside
the parser; only a failure of the inner PKCS#1 structure parse is
returned to the caller as an error. -/
theorem private_key_exit_amended (parsePKCS1 : List Nat → Option Unit) (kb : List Nat) :
    (pemDecode kb = none → loadPrivateKeyModel parsePKCS1 kb = .exited 1) ∧
    (∀ ty bs, pemDecode kb = some (ty, bs) → ty ≠ tyPriv →
      loadPrivateKeyModel parsePKCS1 kb = .exited 1) ∧
    (∀ ty bs, pemDecode kb = some (ty, bs) → ty = tyPriv → parsePKCS1 bs = none →
      loadPrivateKeyModel parsePKCS1 kb = .err) := by
  refine ⟨?_, ?_, ?_⟩
  · intro h
    simp [loadPrivateKeyModel, h]
  · intro ty bs h hne
    simp [loadPrivateKeyModel, h, hne]
  · intro ty bs h hty hp
    simp [loadPrivateKeyModel, h, hty, hp]

/-- Witness for the amended C7 at the empty key file. -/
theorem private_key_exit_amended_witness :
    loadPrivateKeyModel (fun _ => none) [] = .exited 1 :=
  (private_key_exit_amended (fun _ => none) []).1 (by decide)

/-- Model of the `pubkeyRegexp.ReplaceAll(kb, "$1")` step: the anchored
pattern is `^ssh-rsa (\S+).*$` with no multi-line flag, so it rewrites
the whole text to the non-whitespace token after "ssh-rsa " exactly when
the whole text matches (in particular no newline may follow position 8);
otherwise the text is left unchanged.  Go's `\s` is `[\t\n\f\r ]`, so
those five codes end the token. -/
def pubkeyStrip (kb : List Nat) : List Nat :=
  if ([115, 115, 104, 45, 114, 115, 97, 32] : List Nat).isPrefixOf kb then
    let rest := kb.drop 8
    let tok := rest.takeWhile fun b =>
      decide (b ≠ 32 ∧ b ≠ 9 ∧ b ≠ 10 ∧ b ≠ 12 ∧ b ≠ 13)
    let tail := rest.dropWhile fun b =>
      decide (b ≠ 32 ∧ b ≠ 9 ∧ b ≠ 10 ∧ b ≠ 12 ∧ b ≠ 13)
    if tok ≠ [] ∧ (∀ c ∈ tail, c ≠ 10) then tok else kb
  else kb

/-- Model of `loadPublicKey` (sshbox.go lines 116-175) as a function of
the `fetchKey` outcome.  The Go code never checks the error returned by
`fetchKey` — the next use of `err` overwrites it — so a failed fetch,
which yields nil bytes, flows into the regexp strip, the base64 decode
(Go decodes into a `DecodedLen`-sized buffer and ignores the count
written, so the decoded bytes are zero-padded), and the blob parse. -/
def loadPublicKeyModel (fetch : Except Unit (List Nat)) : PubResult :=
  let kb64 := match fetch with
    | .ok bs => bs
    | .error _ => []
  let stripped := pubkeyStrip kb64
  match b64DecodeBytes stripped with
  | none => .errBase64
  | some kb => parsePubBlob (kb ++ List.replicate (stripped.length / 4 * 3 - kb.length) 0)

/-- C8: the fetch error is dropped.  When the key source fails, the
transport error is not propagated: the code proceeds to parse the (nil)
bytes of the failed fetch and reports a key-parse error — the very same
result as for an empty key file — rather than aborting with the fetch
error before any parsing. -/
theorem fetch_error_dropped :
    loadPublicKeyModel (.error ()) = .errRead ∧
    loadPublicKeyModel (.error ()) = loadPublicKeyModel (.ok []) := by
  constructor <;> rfl

end Sshbox
